import Mathlib

/-!
Verification of the mintdiff content-classification and line-reconciliation
engine (`src/lib/diff.ts`).

JavaScript strings are embedded as `List Char` and byte buffers as `List Nat`.
The two third-party routines the source calls (`fileTypeFromBuffer` from the
file-type package and `diffLines` from the diff package) are not part of the
repository; they are modelled from the specification (signature sniffing over
a fixed magic-number table, and an LCS shortest-edit-script over the line
sequences).  Everything else is translated directly from the source.
-/

set_option maxHeartbeats 1000000
set_option maxRecDepth 8000

namespace Mintdiff

/-- JavaScript strings are modelled as lists of characters. -/
abbrev Str := List Char

/-- `TEXT_MIME_HINTS` from `diff.ts`: mime prefixes that force a text verdict. -/
def TEXT_MIME_HINTS : List Str :=
  ["application/json".data, "application/xml".data, "application/yaml".data,
   "application/x-yaml".data, "application/toml".data, "application/javascript".data,
   "application/typescript".data, "application/graphql".data, "text/".data]

/-- `TEXT_EXT_HINTS` from `diff.ts`: the text-extension allow-list. -/
def TEXT_EXT_HINTS : List Str :=
  ["txt".data, "md".data, "json".data, "yaml".data, "yml".data, "xml".data,
   "toml".data, "csv".data, "ts".data, "tsx".data, "js".data, "jsx".data,
   "css".data, "html".data]

/-- `BINARY_MIME_HINTS` from `diff.ts`: mime prefixes that force a binary verdict. -/
def BINARY_MIME_HINTS : List Str :=
  ["image/".data, "audio/".data, "video/".data, "application/pdf".data,
   "application/zip".data, "application/x-zip-compressed".data]

/-- `CONTROL_BYTES` from `diff.ts`: 0x00-0x06 and 0x0E-0x1F. -/
def CONTROL_BYTES : List Nat :=
  [0, 1, 2, 3, 4, 5, 6, 14, 15, 16, 17, 18, 19, 20, 21, 22, 23, 24, 25, 26,
   27, 28, 29, 30, 31]

/-- `MAX_SNIFF_BYTES` from `diff.ts`. -/
def MAX_SNIFF_BYTES : Nat := 4096

/-- JavaScript `String.prototype.toLowerCase`, restricted to per-character lowering. -/
def toLowerStr (s : Str) : Str := s.map Char.toLower

/-- `controlRatio` from `diff.ts`: sample at most the first `MAX_SNIFF_BYTES` bytes,
return 1 as soon as a NUL byte is seen, otherwise the fraction of control bytes. -/
def controlRatio (buffer : List Nat) : ℚ :=
  let sample := if buffer.length > MAX_SNIFF_BYTES then buffer.take MAX_SNIFF_BYTES else buffer
  if sample.length = 0 then 0
  else if 0 ∈ sample then 1
  else ((sample.filter fun b => decide (b ∈ CONTROL_BYTES)).length : ℚ) / (sample.length : ℚ)

/-- `isProbablyText` from `diff.ts`, translated clause by clause:
text-mime prefixes force text, binary-mime prefixes force binary, a
placeholder mime consults the extension allow-list, a truthy extension on the
allow-list forces text, otherwise the control-byte ratio decides. -/
def isProbablyText (buffer : List Nat) (mime : Option Str) (extension : Option Str) : Bool :=
  let normalizedMime := toLowerStr (mime.getD [])
  if TEXT_MIME_HINTS.any fun hint => List.isPrefixOf hint normalizedMime then true
  else if BINARY_MIME_HINTS.any fun hint => List.isPrefixOf hint normalizedMime then false
  else if (normalizedMime = "application/octet-stream".data ∨ normalizedMime = [] ∨
            normalizedMime = "application/x-empty".data)
          ∧ toLowerStr (extension.getD []) ∈ TEXT_EXT_HINTS then true
  else if extension.getD [] ≠ [] ∧ toLowerStr (extension.getD []) ∈ TEXT_EXT_HINTS then true
  else decide ( controlRatio buffer < 1 / 10)

/-- `FileKind` from `types.ts`. -/
inductive FileKind
  | text
  | binary
deriving DecidableEq

/-- `classifyKind` from `diff.ts`. -/
def classifyKind (buffer : List Nat) (mime : Option Str) (extension : Option Str) : FileKind :=
  if isProbablyText buffer mime extension then .text else .binary

/-- Modelled from the spec: the external file-type package's signature sniffing,
described in the spec as "a small fixed table of binary-format magic-number
prefixes checked against the leading bytes".  The exact table is the model's
choice; each entry carries a non-empty mime string. -/
def MAGIC_SIGNATURES : List (List Nat × Str) :=
  [([0x89, 0x50, 0x4E, 0x47], "image/png".data),
   ([0xFF, 0xD8, 0xFF], "image/jpeg".data),
   ([0x47, 0x49, 0x46, 0x38], "image/gif".data),
   ([0x25, 0x50, 0x44, 0x46], "application/pdf".data),
   ([0x50, 0x4B, 0x03, 0x04], "application/zip".data)]

/-- Modelled from the spec: `fileTypeFromBuffer` from the external file-type
package, returning the mime of the first matching magic-number signature. -/
def fileTypeFromBuffer (buffer : List Nat) : Option Str :=
  Option.map (fun e => e.2)
    (List.find? (fun e => List.isPrefixOf e.1 buffer) MAGIC_SIGNATURES)

/-- The extension fallback inside `sniffMime` from `diff.ts`:
`"text/plain"` when the lowercased extension is on the allow-list, otherwise
`"application/octet-stream"`. -/
def extFallback (extension : Option Str) : Str :=
  if toLowerStr (extension.getD []) ∈ TEXT_EXT_HINTS then "text/plain".data
  else "application/octet-stream".data

/-- The declared-type fallback inside `sniffMime` from `diff.ts`: a truthy
`provided` wins, otherwise the extension fallback. -/
def providedFallback (provided : Option Str) (extension : Option Str) : Str :=
  match provided with
  | some p => if p = [] then extFallback extension else p
  | none => extFallback extension

/-- `sniffMime` from `diff.ts`: a truthy detected signature mime wins, then the
truthy declared type, then the extension fallback. -/
def sniffMime (buffer : List Nat) (provided : Option Str) (extension : Option Str) : Str :=
  match fileTypeFromBuffer buffer with
  | some m => if m = [] then providedFallback provided extension else m
  | none => providedFallback provided extension

/-- Stated from the claim's words, for comparison with `sniffMime`: the sniffed
signature's type if a signature matched, else the declared type if present
(non-empty), else `"text/plain"` when the extension allow-list matches, else
`"application/octet-stream"`. -/
def specMediaType (buffer : List Nat) (provided : Option Str) (extension : Option Str) : Str :=
  match fileTypeFromBuffer buffer with
  | some m => m
  | none =>
    if provided.getD [] ≠ [] then provided.getD []
    else if toLowerStr (extension.getD []) ∈ TEXT_EXT_HINTS then "text/plain".data
    else "application/octet-stream".data

/-- JavaScript `value.split("\n")` on the character-list model: always returns
at least one (possibly empty) segment; segments never contain a newline. -/
def splitOnNl : Str → List Str
  | [] => [[]]
  | c :: rest =>
    let ls := splitOnNl rest
    if c = '\n' then [] :: ls
    else (c :: List.headI ls) :: List.tail ls

/-- `splitPreserve` from `diff.ts`: an empty value has no lines; otherwise split
on newlines and drop a trailing empty segment. -/
def splitPreserve (value : Str) : List Str :=
  if value = [] then []
  else
    let lines := splitOnNl value
    if lines ≠ [] ∧ lines.getLast? = some [] then lines.dropLast else lines

/-- The fuelled scanner behind `replaceCrLf`; one unit of fuel per character
examined, so the input length always suffices. -/
def replaceCrLfF : Nat → Str → Str
  | _, [] => []
  | _, [c] => [c]
  | 0, s => s
  | fuel + 1, c :: d :: rest =>
    if c = '\r' ∧ d = '\n' then '\n' :: replaceCrLfF fuel rest
    else c :: replaceCrLfF fuel (d :: rest)

/-- The first pass of `normalizeNewlines` from `diff.ts`:
`value.replace(/\r\n/g, "\n")`, replacing left to right without rescanning. -/
def replaceCrLf (value : Str) : Str := replaceCrLfF value.length value

/-- The second pass of `normalizeNewlines` from `diff.ts`:
`value.replace(/\r/g, "\n")`. -/
def stripCr (s : Str) : Str := s.map fun c => if c = '\r' then '\n' else c

/-- `normalizeNewlines` from `diff.ts`: `\r\n` then lone `\r` become `\n`. -/
def normalizeNewlines (value : Str) : Str := stripCr (replaceCrLf value)

/-- Replacing every `\n` by `\r\n`, the transformation quantified over by the
newline-invariance claim. -/
def expandNl : Str → Str
  | [] => []
  | c :: rest => if c = '\n' then '\r' :: '\n' :: expandNl rest else c :: expandNl rest

/-- One step of an edit script over whole lines. -/
inductive Step
  | keep (line : Str)
  | del (line : Str)
  | ins (line : Str)
deriving DecidableEq

/-- The line carried by a step. -/
def stepLine : Step → Str
  | .keep l => l
  | .del l => l
  | .ins l => l

/-- Whether a step inserts a line into the comparison side. -/
def stepAdded : Step → Bool
  | .ins _ => true
  | _ => false

/-- Whether a step deletes a line from the original side. -/
def stepRemoved : Step → Bool
  | .del _ => true
  | _ => false

/-- Number of non-`keep` steps, the quantity a shortest edit script minimises. -/
def editCost : List Step → Nat
  | [] => 0
  | .keep _ :: rest => editCost rest
  | .del _ :: rest => 1 + editCost rest
  | .ins _ :: rest => 1 + editCost rest

/-- The fuelled core of the edit-script computation; each recursive call
shortens the combined input, so `l.length + r.length` fuel always suffices. -/
def diffListF : Nat → List Str → List Str → List Step
  | _, [], r => r.map Step.ins
  | _, l, [] => l.map Step.del
  | 0, _, _ => []
  | fuel + 1, a :: as, b :: bs =>
    if a = b then Step.keep a :: diffListF fuel as bs
    else
      let viaDel := diffListF fuel as (b :: bs)
      let viaIns := diffListF fuel (a :: as) bs
      if editCost viaDel ≤ editCost viaIns then Step.del a :: viaDel else Step.ins b :: viaIns

/-- Modelled from the spec: the LCS shortest-edit-script computation over line
sequences ("a minimal sequence of Equal/Inserted/Deleted runs ... over whole
lines as atomic tokens"), standing in for the external diff package. -/
def diffList (l r : List Str) : List Step := diffListF (l.length + r.length) l r

/-- One change object of the external diff package's output: a run of lines
(its `value` is their concatenation, each line newline-terminated) flagged as
added, removed or neither. -/
structure Change where
  value : Str
  added : Bool
  removed : Bool
deriving DecidableEq

/-- Concatenate lines, terminating each with a newline. -/
def joinNl : List Str → Str
  | [] => []
  | l :: ls => l ++ '\n' :: joinNl ls

/-- Group consecutive same-flavour steps of an edit script into maximal runs,
producing the change objects the external diff package returns. -/
def toChanges : List Step → List Change
  | [] => []
  | s :: rest =>
    match toChanges rest with
    | [] => [{ value := stepLine s ++ ['\n'], added := stepAdded s, removed := stepRemoved s }]
    | c :: cs =>
      if stepAdded s = c.added ∧ stepRemoved s = c.removed then
        { value := stepLine s ++ '\n' :: c.value, added := c.added, removed := c.removed } :: cs
      else
        { value := stepLine s ++ ['\n'], added := stepAdded s, removed := stepRemoved s }
          :: c :: cs

/-- Modelled from the spec: `diffLines` of the external diff package, computing
the minimal edit script between the two line sequences of the normalized texts
(spec steps 2 and 3) and returning it as runs. -/
def diffLines (left right : Str) : List Change :=
  toChanges (diffList (splitPreserve left) (splitPreserve right))

/-- `DiffLineType` from `types.ts`. -/
inductive DiffLineType
  | unchanged
  | added
  | removed
  | modified
deriving DecidableEq

/-- `DiffLine` from `types.ts`. -/
structure DiffLine where
  type : DiffLineType
  oldNumber : Option Nat
  newNumber : Option Nat
  before : Option Str
  after : Option Str
deriving DecidableEq

/-- `DiffSummary` from `types.ts`. -/
structure DiffSummary where
  identical : Bool
  totalLines : Nat
  added : Nat
  removed : Nat
  modified : Nat
  changePercent : Int
deriving DecidableEq

/-- The mutable state of the `computeTextDiff` loop: the emitted lines, the
three change counters and the two line-number counters. -/
structure LoopState where
  diff : List DiffLine
  added : Nat
  removed : Nat
  modified : Nat
  oldLine : Nat
  newLine : Nat
deriving DecidableEq

/-- The standalone added-run loop of `computeTextDiff`; it is also the tail of
the modification-group loop once the deleted lines are exhausted, since the
source emits leftover inserted lines with exactly this code. -/
def emitAdded : List Str → LoopState → LoopState
  | [], st => st
  | a :: as, st =>
    emitAdded as
      { st with
        diff := st.diff ++
          [{ type := .added, oldNumber := none, newNumber := some st.newLine,
             before := none, after := some a }],
        newLine := st.newLine + 1, added := st.added + 1 }

/-- The modification-group loop of `computeTextDiff`: pair deleted and inserted
lines positionally, spilling the longer side as plain removed/added lines. -/
def emitGroup : List Str → List Str → LoopState → LoopState
  | [], as, st => emitAdded as st
  | b :: bs, [], st =>
    emitGroup bs []
      { st with
        diff := st.diff ++
          [{ type := .removed, oldNumber := some st.oldLine, newNumber := none,
             before := some b, after := none }],
        oldLine := st.oldLine + 1, removed := st.removed + 1 }
  | b :: bs, a :: as, st =>
    emitGroup bs as
      { st with
        diff := st.diff ++
          [{ type := .modified, oldNumber := some st.oldLine, newNumber := some st.newLine,
             before := some b, after := some a }],
        oldLine := st.oldLine + 1, newLine := st.newLine + 1, modified := st.modified + 1 }

/-- The standalone removed-run loop of `computeTextDiff`. -/
def emitRemoved : List Str → LoopState → LoopState
  | [], st => st
  | b :: bs, st =>
    emitRemoved bs
      { st with
        diff := st.diff ++
          [{ type := .removed, oldNumber := some st.oldLine, newNumber := none,
             before := some b, after := none }],
        oldLine := st.oldLine + 1, removed := st.removed + 1 }

/-- The unchanged-run loop of `computeTextDiff`. -/
def emitEqual : List Str → LoopState → LoopState
  | [], st => st
  | l :: ls, st =>
    emitEqual ls
      { st with
        diff := st.diff ++
          [{ type := .unchanged, oldNumber := some st.oldLine, newNumber := some st.newLine,
             before := some l, after := some l }],
        oldLine := st.oldLine + 1, newLine := st.newLine + 1 }

/-- Processing one change that was not grouped: the added, removed and
unchanged branches of the `computeTextDiff` loop, in source order. -/
def emitSingle (c : Change) (st : LoopState) : LoopState :=
  if c.added then emitAdded (splitPreserve c.value) st
  else if c.removed then emitRemoved (splitPreserve c.value) st
  else emitEqual (splitPreserve c.value) st

/-- The indexed `for` loop of `computeTextDiff`: a removed change immediately
followed by an added change is consumed as one modification group (the source
advances `i` past both), anything else is emitted on its own. -/
def walkF : Nat → List Change → LoopState → LoopState
  | _, [], st => st
  | _, [c], st => emitSingle c st
  | 0, _, st => st
  | fuel + 1, c :: n :: rest, st =>
    if c.removed && n.added then
      walkF fuel rest (emitGroup (splitPreserve c.value) (splitPreserve n.value) st)
    else walkF fuel (n :: rest) (emitSingle c st)

/-- The indexed `for` loop of `computeTextDiff`, with one unit of fuel per
change consumed (the change-list length always suffices). -/
def walk (changes : List Change) (st : LoopState) : LoopState :=
  walkF changes.length changes st

/-- JavaScript `Math.round` on exact rationals: round half toward positive
infinity. -/
def jsRound (x : ℚ) : Int := Int.floor (x + 1 / 2)

/-- `computeTextDiff` from `diff.ts`: normalize, split, compute the edit
script, reconcile it into annotated lines, and assemble the summary. -/
def computeTextDiff (original comparison : Str) : List DiffLine × DiffSummary :=
  let normalizedLeft := normalizeNewlines original
  let normalizedRight := normalizeNewlines comparison
  let leftLines := splitPreserve normalizedLeft
  let rightLines := splitPreserve normalizedRight
  let changes := diffLines normalizedLeft normalizedRight
  let st := walk changes { diff := [], added := 0, removed := 0, modified := 0, oldLine := 1, newLine := 1 }
  let totalLines := max leftLines.length rightLines.length
  let changesCount := st.added + st.removed + st.modified
  let changePercent : Int :=
    if totalLines = 0 then 0
    else min 100 (max 0 (jsRound ((changesCount : ℚ) / (totalLines : ℚ) * 100)))
  (st.diff,
   { identical := changesCount == 0,
     totalLines := totalLines,
     added := st.added,
     removed := st.removed,
     modified := st.modified,
     changePercent := changePercent })

/-- Stated from the claim's words, for comparison with the grouped output of
`computeTextDiff`: the j-th deleted line paired with the j-th inserted line as
a modified line for j below the shorter length, then the leftover deleted
lines as removed, then the leftover inserted lines as added, with both
line-number counters advancing. -/
def claimGroupBlock (ds as : List Str) (oldL newL : Nat) : List DiffLine :=
  let m := min ds.length as.length
  ((List.range m).map fun j =>
    { type := DiffLineType.modified, oldNumber := some (oldL + j), newNumber := some (newL + j),
      before := ds[j]?, after := as[j]? })
  ++ ((List.range (ds.length - m)).map fun j =>
    { type := DiffLineType.removed, oldNumber := some (oldL + m + j), newNumber := none,
      before := ds[m + j]?, after := none })
  ++ ((List.range (as.length - m)).map fun j =>
    { type := DiffLineType.added, oldNumber := none, newNumber := some (newL + m + j),
      before := none, after := as[m + j]? })

/-- Stated from the claim's words, for comparison with the summary of
`computeTextDiff`: `round(100 * (added + removed + modified) / totalLines)`
clamped to `[0, 100]`, and `0` when `totalLines` is `0`. -/
def specChangePercent (a r m t : Nat) : Int :=
  if t = 0 then 0
  else min 100 (max 0 (jsRound (100 * ((a : ℚ) + (r : ℚ) + (m : ℚ)) / (t : ℚ))))

/-- The loop state `computeTextDiff` reaches after consuming the whole edit
script, starting from empty output and both line counters at 1. -/
def finalState (original comparison : Str) : LoopState :=
  walk (diffLines (normalizeNewlines original) (normalizeNewlines comparison))
    { diff := [], added := 0, removed := 0, modified := 0, oldLine := 1, newLine := 1 }

/-- The `totalLines` quantity of `computeTextDiff`: the longer of the two
post-normalization post-split line counts. -/
def totalLinesOf (original comparison : Str) : Nat :=
  max (splitPreserve (normalizeNewlines original)).length
    (splitPreserve (normalizeNewlines comparison)).length

/-- A buffer used as a counterexample: 4096 printable bytes followed by one
NUL byte just past the sniffing window. -/
def bigNulBuffer : List Nat := List.replicate MAX_SNIFF_BYTES 97 ++ [0]

/-! ### Classifier lemmas -/

theorem isPrefixOf_eq_true_iff (l₁ l₂ : Str) :
    List.isPrefixOf l₁ l₂ = true ↔ ∃ t, l₂ = l₁ ++ t := by
  induction l₁ generalizing l₂ with
  | nil => simp [List.isPrefixOf]
  | cons c cs ih =>
    cases l₂ with
    | nil => simp [List.isPrefixOf]
    | cons d ds =>
      simp only [List.isPrefixOf, Bool.and_eq_true, beq_iff_eq, ih, List.cons_append,
        List.cons.injEq]
      constructor
      · rintro ⟨rfl, t, rfl⟩
        exact ⟨t, rfl, rfl⟩
      · rintro ⟨t, rfl, rfl⟩
        exact ⟨rfl, t, rfl⟩

theorem toLowerStr_append (a b : Str) : toLowerStr (a ++ b) = toLowerStr a ++ toLowerStr b := by
  simp [toLowerStr]

theorem controlRatio_take (b : List Nat) :
    controlRatio b = controlRatio (b.take MAX_SNIFF_BYTES) := by
  have h1 : (if b.length > MAX_SNIFF_BYTES then b.take MAX_SNIFF_BYTES else b) =
      b.take MAX_SNIFF_BYTES := by
    by_cases h : b.length > MAX_SNIFF_BYTES
    · rw [if_pos h]
    · rw [if_neg h, List.take_of_length_le (by omega)]
  have h2 : (if (b.take MAX_SNIFF_BYTES).length > MAX_SNIFF_BYTES then
      (b.take MAX_SNIFF_BYTES).take MAX_SNIFF_BYTES else b.take MAX_SNIFF_BYTES) =
      b.take MAX_SNIFF_BYTES := by
    rw [if_neg]
    rw [List.length_take]
    omega
  simp only [controlRatio, h1, h2]

theorem controlRatio_eq_one (b : List Nat) (h : 0 ∈ b.take MAX_SNIFF_BYTES) :
    controlRatio b = 1 := by
  rw [controlRatio_take]
  have hs : (if (b.take MAX_SNIFF_BYTES).length > MAX_SNIFF_BYTES then
      (b.take MAX_SNIFF_BYTES).take MAX_SNIFF_BYTES else b.take MAX_SNIFF_BYTES) =
      b.take MAX_SNIFF_BYTES := by
    rw [if_neg]
    rw [List.length_take]
    omega
  have hne : (b.take MAX_SNIFF_BYTES).length ≠ 0 := by
    intro hzero
    exact List.ne_nil_of_mem h (List.eq_nil_of_length_eq_zero hzero)
  simp only [controlRatio, hs]
  rw [if_neg hne, if_pos h]

/-- The text-mime test of `isProbablyText`, packaged as a boolean. -/
theorem any_eq_false_of_all {l : List Str} {p : Str → Bool}
    (h : ∀ x ∈ l, p x = false) : l.any p = false := by
  rw [Bool.eq_false_iff]
  intro hc
  obtain ⟨x, hx, hpx⟩ := List.any_eq_true.1 hc
  rw [h x hx] at hpx
  exact Bool.false_ne_true hpx

theorem take_sniff_replicate (x : Nat) :
    List.take MAX_SNIFF_BYTES (List.replicate MAX_SNIFF_BYTES (97 : Nat) ++ [x]) =
    List.replicate MAX_SNIFF_BYTES 97 := by
  have h := List.take_left (List.replicate MAX_SNIFF_BYTES (97 : Nat)) [x]
  rwa [List.length_replicate] at h

theorem max_sniff_pos : 0 < MAX_SNIFF_BYTES := by
  unfold MAX_SNIFF_BYTES
  omega

theorem controlRatio_bigNulBuffer : controlRatio bigNulBuffer = 0 := by
  rw [controlRatio_take]
  unfold bigNulBuffer
  rw [take_sniff_replicate]
  have hfil : List.filter (fun b => decide (b ∈ CONTROL_BYTES))
      (List.replicate MAX_SNIFF_BYTES (97 : Nat)) = [] := by
    rw [List.filter_eq_nil_iff]
    intro a ha
    rw [List.eq_of_mem_replicate ha]
    decide
  have hmem : ¬ (0 ∈ List.replicate MAX_SNIFF_BYTES (97 : Nat)) := by
    rw [List.mem_replicate]
    rintro ⟨-, h⟩
    exact absurd h (by decide)
  have hpos := max_sniff_pos
  have hs : (if (List.replicate MAX_SNIFF_BYTES (97 : Nat)).length > MAX_SNIFF_BYTES then
      (List.replicate MAX_SNIFF_BYTES (97 : Nat)).take MAX_SNIFF_BYTES
      else List.replicate MAX_SNIFF_BYTES (97 : Nat)) =
      List.replicate MAX_SNIFF_BYTES (97 : Nat) := by
    rw [if_neg]
    rw [List.length_replicate]
    omega
  simp only [controlRatio, hs]
  rw [if_neg (by rw [List.length_replicate]; omega), if_neg hmem, hfil]
  simp

theorem bigNulBuffer_isText : isProbablyText bigNulBuffer none none = true := by
  simp only [isProbablyText]
  rw [if_neg (by decide), if_neg (by decide), if_neg (by decide), if_neg (by decide)]
  rw [controlRatio_bigNulBuffer]
  rw [decide_eq_true_eq]
  norm_num

/-! ### C1 -/

/-- C1 counterexample: the claim quantifies over every hint and every NUL
position, but a `text/plain` mime hint forces a text verdict on a NUL buffer,
and a NUL byte past the 4096-byte sniffing window is never seen. -/
theorem c1_counterexample :
    (0 ∈ ([0] : List Nat) ∧ isProbablyText [0] (some ("text/plain".data)) none = true)
    ∧ (0 ∈ bigNulBuffer ∧ isProbablyText bigNulBuffer none none = true) := by
  refine ⟨⟨by decide, by decide⟩, ?_, bigNulBuffer_isText⟩
  unfold bigNulBuffer
  exact List.mem_append.2 (Or.inr (by decide))

/-- C1 (amended): a NUL byte within the first `MAX_SNIFF_BYTES` bytes forces
`isText = false`, provided the declared media type matches no text-mime prefix
and the extension is not on the text allow-list. -/
theorem c1_nul_binary_amended (buffer : List Nat) (mime extension : Option Str)
    (hnul : 0 ∈ buffer.take MAX_SNIFF_BYTES)
    (hmime : ∀ hint ∈ TEXT_MIME_HINTS, List.isPrefixOf hint (toLowerStr (mime.getD [])) = false)
    (hext : toLowerStr (extension.getD []) ∉ TEXT_EXT_HINTS) :
    isProbablyText buffer mime extension = false := by
  have hany : (TEXT_MIME_HINTS.any fun hint =>
      List.isPrefixOf hint (toLowerStr (mime.getD []))) = false := any_eq_false_of_all hmime
  simp only [isProbablyText]
  rw [if_neg (by simp [hany])]
  by_cases hbin : (BINARY_MIME_HINTS.any fun hint =>
      List.isPrefixOf hint (toLowerStr (mime.getD []))) = true
  · rw [if_pos hbin]
  · rw [if_neg hbin]
    rw [if_neg (fun hc => hext hc.2)]
    rw [if_neg (fun hc => hext hc.2)]
    rw [controlRatio_eq_one buffer hnul]
    rw [decide_eq_false_iff_not]
    norm_num

/-- C1 witness: a lone NUL byte with no hints is classified binary. -/
theorem c1_witness : isProbablyText [0] none none = false :=
  c1_nul_binary_amended [0] none none (by decide) (by decide) (by decide)

/-! ### C5 -/

/-- C5 counterexample: with a declared type that is present, not a
placeholder, and on neither prefix list, an allow-listed extension still
forces a text verdict on a NUL buffer, although content sniffing would say
binary — the extension is not consulted only in the placeholder case. -/
theorem c5_counterexample :
    (∀ hint ∈ TEXT_MIME_HINTS,
        List.isPrefixOf hint (toLowerStr ("application/foobar".data)) = false)
    ∧ (∀ hint ∈ BINARY_MIME_HINTS,
        List.isPrefixOf hint (toLowerStr ("application/foobar".data)) = false)
    ∧ toLowerStr ("application/foobar".data) ≠ "application/octet-stream".data
    ∧ toLowerStr ("application/foobar".data) ≠ []
    ∧ toLowerStr ("application/foobar".data) ≠ "application/x-empty".data
    ∧ isProbablyText [0] (some ("application/foobar".data)) (some ("ts".data)) = true
    ∧ controlRatio [0] = 1 ∧ ¬ ((1 : ℚ) < 1 / 10) := by
  refine ⟨by decide, by decide, by decide, by decide, by decide, by decide, ?_, by norm_num⟩
  exact controlRatio_eq_one [0] (by decide)

/-- C5 (amended): whenever the declared media type matches neither prefix
list, a truthy extension on the allow-list forces `isText = true`; if the
extension is not on the allow-list the verdict is exactly the content sniff,
which reads at most the first `MAX_SNIFF_BYTES` bytes. -/
theorem c5_extension_fallback_amended (buffer : List Nat) (mime extension : Option Str)
    (hTextMime : ∀ hint ∈ TEXT_MIME_HINTS,
      List.isPrefixOf hint (toLowerStr (mime.getD [])) = false)
    (hBinMime : ∀ hint ∈ BINARY_MIME_HINTS,
      List.isPrefixOf hint (toLowerStr (mime.getD [])) = false) :
    (∀ e, extension = some e → e ≠ [] → toLowerStr e ∈ TEXT_EXT_HINTS →
        isProbablyText buffer mime extension = true)
    ∧ (toLowerStr (extension.getD []) ∉ TEXT_EXT_HINTS →
        isProbablyText buffer mime extension = decide ( controlRatio buffer < 1 / 10))
    ∧ controlRatio buffer = controlRatio (buffer.take MAX_SNIFF_BYTES) := by
  have hany1 : (TEXT_MIME_HINTS.any fun hint =>
      List.isPrefixOf hint (toLowerStr (mime.getD []))) = false := any_eq_false_of_all hTextMime
  have hany2 : (BINARY_MIME_HINTS.any fun hint =>
      List.isPrefixOf hint (toLowerStr (mime.getD []))) = false := any_eq_false_of_all hBinMime
  refine ⟨?_, ?_, controlRatio_take buffer⟩
  · rintro e rfl hne hmem
    simp only [isProbablyText]
    rw [if_neg (by simp [hany1]), if_neg (by simp [hany2])]
    by_cases hA : toLowerStr (mime.getD []) = "application/octet-stream".data ∨
        toLowerStr (mime.getD []) = [] ∨ toLowerStr (mime.getD []) = "application/x-empty".data
    · rw [if_pos ⟨hA, by simpa using hmem⟩]
    · rw [if_neg (fun hc => hA hc.1)]
      rw [if_pos ⟨by simpa using hne, by simpa using hmem⟩]
  · intro hnot
    simp only [isProbablyText]
    rw [if_neg (by simp [hany1]), if_neg (by simp [hany2])]
    rw [if_neg (fun hc => hnot hc.2)]
    rw [if_neg (fun hc => hnot hc.2)]

/-- C5 witness: neither-list mime plus `.ts` extension yields a text verdict
on a printable buffer. -/
theorem c5_witness :
    isProbablyText [65] (some ("application/foobar".data)) (some ("ts".data)) = true :=
  (c5_extension_fallback_amended [65] (some ("application/foobar".data))
      (some ("ts".data)) (by decide) (by decide)).1 ("ts".data) rfl (by decide) (by decide)

/-! ### C8 -/

/-- C8: a declared media type starting with `text/` forces a text verdict
regardless of the buffer content. -/
theorem c8_text_mime_forces_text (buffer : List Nat) (m : Str) (extension : Option Str)
    (h : List.isPrefixOf ("text/".data) m = true) :
    isProbablyText buffer (some m) extension = true := by
  obtain ⟨t, rfl⟩ := (isPrefixOf_eq_true_iff _ _).1 h
  have hlow : List.isPrefixOf ("text/".data)
      (toLowerStr ((some ("text/".data ++ t)).getD [])) = true := by
    simp only [Option.getD_some]
    rw [toLowerStr_append]
    rw [show toLowerStr ("text/".data) = "text/".data from by decide]
    exact (isPrefixOf_eq_true_iff _ _).2 ⟨toLowerStr t, rfl⟩
  have hany : (TEXT_MIME_HINTS.any fun hint =>
      List.isPrefixOf hint (toLowerStr ((some ("text/".data ++ t)).getD []))) = true :=
    List.any_eq_true.2 ⟨_, by decide, hlow⟩
  simp only [isProbablyText]
  rw [if_pos hany]

/-- C8 witness: a NUL-bearing buffer declared `text/x-custom` is still text. -/
theorem c8_witness : isProbablyText [0, 1, 2] (some ("text/x-custom".data)) none = true :=
  c8_text_mime_forces_text [0, 1, 2] ("text/x-custom".data) none (by decide)

/-! ### C9 -/

/-- C9: the returned media type is the sniffed signature type, else the
(non-empty) declared type, else `text/plain` on an allow-listed extension,
else `application/octet-stream`; it is never empty. -/
theorem c9_media_type_fallback (buffer : List Nat) (provided extension : Option Str) :
    sniffMime buffer provided extension = specMediaType buffer provided extension
    ∧ sniffMime buffer provided extension ≠ [] := by
  cases hdet : fileTypeFromBuffer buffer with
  | some m =>
    have hm : m ≠ [] := by
      have hfind : ∃ e, List.find? (fun e => List.isPrefixOf e.1 buffer) MAGIC_SIGNATURES =
          some e ∧ e.2 = m := by
        unfold fileTypeFromBuffer at hdet
        cases hf : List.find? (fun e => List.isPrefixOf e.1 buffer) MAGIC_SIGNATURES with
        | none => rw [hf] at hdet; simp at hdet
        | some e =>
          rw [hf] at hdet
          simp only [Option.map_some'] at hdet
          exact ⟨e, rfl, by injection hdet⟩
      obtain ⟨e, he, rfl⟩ := hfind
      have htab : ∀ x ∈ MAGIC_SIGNATURES, x.2 ≠ ([] : Str) := by decide
      exact htab e (List.mem_of_find?_eq_some he)
    simp [sniffMime, specMediaType, hdet, hm]
  | none =>
    have hfb : extFallback extension ≠ [] ∧ extFallback extension =
        (if toLowerStr (extension.getD []) ∈ TEXT_EXT_HINTS then "text/plain".data
         else "application/octet-stream".data) := by
      unfold extFallback
      refine ⟨?_, rfl⟩
      by_cases hx : toLowerStr (extension.getD []) ∈ TEXT_EXT_HINTS
      · rw [if_pos hx]; decide
      · rw [if_neg hx]; decide
    cases provided with
    | none =>
      simp only [sniffMime, specMediaType, hdet, providedFallback]
      exact ⟨by simpa using hfb.2, hfb.1⟩
    | some p =>
      by_cases hp : p = []
      · subst hp
        simp only [sniffMime, specMediaType, hdet, providedFallback, if_pos rfl]
        exact ⟨by simpa using hfb.2, hfb.1⟩
      · simp only [sniffMime, specMediaType, hdet, providedFallback, if_neg hp]
        simp [hp]

/-- C9 witness: with no signature, declared type, or extension, the media
type is the non-empty generic binary type. -/
theorem c9_witness : sniffMime [] none none ≠ [] :=
  (c9_media_type_fallback [] none none).2

/-! ### C10 -/

/-- C10: the verdict depends only on the hints and the first
`MAX_SNIFF_BYTES` bytes of the buffer. -/
theorem c10_sniff_window_determinism (b1 b2 : List Nat) (mime extension : Option Str)
    (h : b1.take MAX_SNIFF_BYTES = b2.take MAX_SNIFF_BYTES) :
    isProbablyText b1 mime extension = isProbablyText b2 mime extension := by
  have hcr : controlRatio b1 = controlRatio b2 := by
    rw [controlRatio_take b1, controlRatio_take b2, h]
  simp only [isProbablyText, hcr]

/-- C10 witness: two buffers agreeing on their first 4096 bytes but differing
afterwards classify identically. -/
theorem c10_witness :
    isProbablyText (List.replicate MAX_SNIFF_BYTES 97 ++ [0]) none none =
    isProbablyText (List.replicate MAX_SNIFF_BYTES 97 ++ [1]) none none :=
  c10_sniff_window_determinism _ _ none none
    (by rw [take_sniff_replicate, take_sniff_replicate])

/-! ### Splitting lemmas -/

theorem splitOnNl_cons (c : Char) (rest : Str) :
    splitOnNl (c :: rest) =
      if c = '\n' then [] :: splitOnNl rest
      else (c :: (splitOnNl rest).headI) :: (splitOnNl rest).tail := rfl

theorem splitOnNl_ne_nil (s : Str) : splitOnNl s ≠ [] := by
  cases s with
  | nil => simp [splitOnNl]
  | cons c rest =>
    rw [splitOnNl_cons]
    by_cases h : c = '\n'
    · simp [h]
    · simp [h]

theorem splitOnNl_append_newline (s : Str) :
    splitOnNl (s ++ ['\n']) = splitOnNl s ++ [[]] := by
  induction s with
  | nil => simp [splitOnNl]
  | cons c rest ih =>
    by_cases h : c = '\n'
    · subst h
      rw [List.cons_append, splitOnNl_cons, splitOnNl_cons, if_pos rfl, if_pos rfl, ih]
      rfl
    · have hne := splitOnNl_ne_nil rest
      rw [List.cons_append, splitOnNl_cons, splitOnNl_cons, if_neg h, if_neg h, ih]
      cases hs : splitOnNl rest with
      | nil => exact absurd hs hne
      | cons x xs => simp

theorem splitOnNl_noNl : ∀ (s : Str), ∀ l ∈ splitOnNl s, '\n' ∉ l := by
  intro s
  induction s with
  | nil =>
    intro l hl
    simp [splitOnNl] at hl
    simp [hl]
  | cons c rest ih =>
    intro l hl
    by_cases h : c = '\n'
    · subst h
      rw [splitOnNl_cons, if_pos rfl] at hl
      rcases List.mem_cons.1 hl with hl | hl
      · simp [hl]
      · exact ih l hl
    · rw [splitOnNl_cons, if_neg h] at hl
      rcases List.mem_cons.1 hl with hl | hl
      · subst hl
        intro hmem
        rcases List.mem_cons.1 hmem with hh | hh
        · exact h hh.symm
        · cases hs : splitOnNl rest with
          | nil => exact absurd hs (splitOnNl_ne_nil rest)
          | cons x xs =>
            rw [hs] at hh
            exact ih x (by rw [hs]; exact List.mem_cons_self _ _) hh
      · have htail : l ∈ (splitOnNl rest).tail := hl
        exact ih l (List.mem_of_mem_tail htail)

theorem splitOnNl_getLast_ne : ∀ (s : Str), s ≠ [] → s.getLast? ≠ some '\n' →
    (splitOnNl s).getLast? ≠ some [] := by
  intro s
  induction s with
  | nil => intro h; exact absurd rfl h
  | cons c rest ih =>
    intro _ hlast
    cases rest with
    | nil =>
      have hc : c ≠ '\n' := by simpa using hlast
      simp [splitOnNl, hc]
    | cons d rest2 =>
      have hlast2 : (d :: rest2).getLast? ≠ some '\n' := by
        rwa [List.getLast?_cons_cons] at hlast
      have hrec := ih (by simp) hlast2
      have hnn := splitOnNl_ne_nil (d :: rest2)
      by_cases h : c = '\n'
      · subst h
        rw [splitOnNl_cons, if_pos rfl]
        cases hs : splitOnNl (d :: rest2) with
        | nil => exact absurd hs hnn
        | cons x xs =>
          rw [List.getLast?_cons_cons]
          rwa [hs] at hrec
      · rw [splitOnNl_cons, if_neg h]
        cases hs : splitOnNl (d :: rest2) with
        | nil => exact absurd hs hnn
        | cons x xs =>
          cases xs with
          | nil => simp
          | cons y ys =>
            simp only [List.headI, List.tail_cons]
            rw [List.getLast?_cons_cons]
            rw [hs, List.getLast?_cons_cons] at hrec
            exact hrec

theorem splitPreserve_noNl (s : Str) : ∀ l ∈ splitPreserve s, '\n' ∉ l := by
  intro l hl
  unfold splitPreserve at hl
  by_cases h : s = []
  · simp [h] at hl
  · rw [if_neg h] at hl
    by_cases h2 : splitOnNl s ≠ [] ∧ (splitOnNl s).getLast? = some []
    · rw [if_pos h2] at hl
      exact splitOnNl_noNl s l (List.dropLast_subset _ hl)
    · rw [if_neg h2] at hl
      exact splitOnNl_noNl s l hl

theorem splitPreserve_append_newline (s : Str) (hne : s ≠ []) (hlast : s.getLast? ≠ some '\n') :
    splitPreserve (s ++ ['\n']) = splitPreserve s := by
  have happ : s ++ ['\n'] ≠ [] := by simp
  unfold splitPreserve
  rw [if_neg happ, if_neg hne]
  rw [splitOnNl_append_newline]
  rw [if_pos ⟨by simp [splitOnNl_ne_nil], List.getLast?_concat _⟩]
  rw [List.dropLast_concat]
  rw [if_neg (fun hc => splitOnNl_getLast_ne s hne hlast hc.2)]

theorem splitOnNl_line_append {l : Str} (hl : '\n' ∉ l) (t : Str) :
    splitOnNl (l ++ '\n' :: t) = l :: splitOnNl t := by
  induction l with
  | nil => simp [splitOnNl]
  | cons c cs ih =>
    have hc : c ≠ '\n' := fun h => hl (h ▸ List.mem_cons_self _ _)
    have hcs : '\n' ∉ cs := fun h => hl (List.mem_cons_of_mem _ h)
    rw [List.cons_append, splitOnNl_cons, if_neg hc, ih hcs]
    simp

theorem splitOnNl_joinNl : ∀ (L : List Str), (∀ l ∈ L, '\n' ∉ l) →
    splitOnNl (joinNl L) = L ++ [[]] := by
  intro L
  induction L with
  | nil =>
    intro _
    simp [joinNl, splitOnNl]
  | cons l ls ih =>
    intro h
    have h1 : '\n' ∉ l := h l (List.mem_cons_self _ _)
    have h2 : ∀ x ∈ ls, '\n' ∉ x := fun x hx => h x (List.mem_cons_of_mem _ hx)
    simp only [joinNl]
    rw [splitOnNl_line_append h1, ih h2]
    rfl

theorem joinNl_ne_nil {L : List Str} (h : L ≠ []) : joinNl L ≠ [] := by
  cases L with
  | nil => exact absurd rfl h
  | cons l ls => simp [joinNl]

theorem splitPreserve_joinNl : ∀ (L : List Str), (∀ l ∈ L, '\n' ∉ l) →
    splitPreserve (joinNl L) = L := by
  intro L h
  cases L with
  | nil => simp [joinNl, splitPreserve]
  | cons l ls =>
    unfold splitPreserve
    rw [if_neg (joinNl_ne_nil (by simp))]
    rw [splitOnNl_joinNl _ h]
    rw [if_pos ⟨by simp, List.getLast?_concat _⟩, List.dropLast_concat]

/-! ### Normalization lemmas -/

theorem replaceCrLfF_fuel : ∀ (fuel fuel' : Nat) (s : Str),
    s.length ≤ fuel → s.length ≤ fuel' → replaceCrLfF fuel s = replaceCrLfF fuel' s := by
  intro fuel
  induction fuel with
  | zero =>
    intro fuel' s h _
    have hs : s = [] := List.eq_nil_of_length_eq_zero (by omega)
    subst hs
    cases fuel' <;> rfl
  | succ f ih =>
    intro fuel' s h h'
    match s with
    | [] => cases fuel' <;> rfl
    | [c] => cases fuel' <;> rfl
    | c :: d :: rest =>
      have hlen : rest.length + 2 ≤ f + 1 := by
        simpa using h
      cases fuel' with
      | zero =>
        exfalso
        simp at h'
      | succ f' =>
        have hlen' : rest.length + 2 ≤ f' + 1 := by
          simpa using h'
        show (if c = '\r' ∧ d = '\n' then '\n' :: replaceCrLfF f rest
              else c :: replaceCrLfF f (d :: rest)) =
             (if c = '\r' ∧ d = '\n' then '\n' :: replaceCrLfF f' rest
              else c :: replaceCrLfF f' (d :: rest))
        by_cases hc : c = '\r' ∧ d = '\n'
        · rw [if_pos hc, if_pos hc, ih f' rest (by omega) (by omega)]
        · rw [if_neg hc, if_neg hc,
            ih f' (d :: rest) (by simp; omega) (by simp; omega)]

theorem replaceCrLf_two (c d : Char) (rest : Str) :
    replaceCrLf (c :: d :: rest) =
      if c = '\r' ∧ d = '\n' then '\n' :: replaceCrLf rest
      else c :: replaceCrLf (d :: rest) := by
  unfold replaceCrLf
  have hl : (c :: d :: rest).length = rest.length + 2 := by simp
  rw [hl]
  show (if c = '\r' ∧ d = '\n' then '\n' :: replaceCrLfF (rest.length + 1) rest
        else c :: replaceCrLfF (rest.length + 1) (d :: rest)) = _
  by_cases hc : c = '\r' ∧ d = '\n'
  · rw [if_pos hc, if_pos hc,
      replaceCrLfF_fuel (rest.length + 1) rest.length rest (by omega) (by omega)]
  · rw [if_neg hc, if_neg hc,
      replaceCrLfF_fuel (rest.length + 1) (d :: rest).length (d :: rest) (by simp) (by simp)]

theorem replaceCrLf_one (c : Char) : replaceCrLf [c] = [c] := rfl

theorem replaceCrLf_of_no_cr : ∀ (s : Str), '\r' ∉ s → replaceCrLf s = s
  | [], _ => rfl
  | [c], _ => replaceCrLf_one c
  | c :: d :: rest, h => by
    have hc : c ≠ '\r' := fun hh => h (hh ▸ List.mem_cons_self _ _)
    have hrest : '\r' ∉ d :: rest := fun hh => h (List.mem_cons_of_mem _ hh)
    rw [replaceCrLf_two]
    rw [if_neg (fun hand => hc hand.1)]
    rw [replaceCrLf_of_no_cr (d :: rest) hrest]
termination_by s => s.length

theorem stripCr_of_no_cr (s : Str) (h : '\r' ∉ s) : stripCr s = s := by
  induction s with
  | nil => rfl
  | cons c cs ih =>
    have hc : c ≠ '\r' := fun hh => h (hh ▸ List.mem_cons_self _ _)
    have hcs : '\r' ∉ cs := fun hh => h (List.mem_cons_of_mem _ hh)
    show (if c = '\r' then '\n' else c) :: stripCr cs = c :: cs
    rw [if_neg hc, ih hcs]

theorem normalizeNewlines_of_no_cr (s : Str) (h : '\r' ∉ s) : normalizeNewlines s = s := by
  unfold normalizeNewlines
  rw [replaceCrLf_of_no_cr s h, stripCr_of_no_cr s h]

theorem expandNl_cons (c : Char) (rest : Str) :
    expandNl (c :: rest) =
      if c = '\n' then '\r' :: '\n' :: expandNl rest else c :: expandNl rest := rfl

theorem expandNl_eq_nil_iff (s : Str) : expandNl s = [] ↔ s = [] := by
  cases s with
  | nil => simp [expandNl]
  | cons c rest =>
    by_cases h : c = '\n' <;> simp [expandNl, h]

theorem replaceCrLf_expandNl : ∀ (s : Str), '\r' ∉ s → replaceCrLf (expandNl s) = s
  | [], _ => rfl
  | c :: rest, h => by
    have hc : c ≠ '\r' := fun hh => h (hh ▸ List.mem_cons_self _ _)
    have hrest : '\r' ∉ rest := fun hh => h (List.mem_cons_of_mem _ hh)
    by_cases hn : c = '\n'
    · subst hn
      rw [expandNl_cons, if_pos rfl]
      rw [replaceCrLf_two, if_pos ⟨rfl, rfl⟩]
      rw [replaceCrLf_expandNl rest hrest]
    · cases he : expandNl rest with
      | nil =>
        have hr : rest = [] := (expandNl_eq_nil_iff rest).1 he
        subst hr
        rw [expandNl_cons, if_neg hn]
        rw [show expandNl [] = [] from rfl]
        exact replaceCrLf_one c
      | cons d w =>
        rw [expandNl_cons, if_neg hn, he]
        rw [replaceCrLf_two]
        rw [if_neg (fun hand => hc hand.1)]
        rw [← he, replaceCrLf_expandNl rest hrest]
termination_by s => s.length

theorem normalizeNewlines_expandNl (s : Str) (h : '\r' ∉ s) :
    normalizeNewlines (expandNl s) = s := by
  unfold normalizeNewlines
  rw [replaceCrLf_expandNl s h, stripCr_of_no_cr s h]

/-! ### Edit-script and loop lemmas -/

theorem walkF_fuel : ∀ (fuel fuel' : Nat) (changes : List Change) (st : LoopState),
    changes.length ≤ fuel → changes.length ≤ fuel' →
    walkF fuel changes st = walkF fuel' changes st := by
  intro fuel
  induction fuel with
  | zero =>
    intro fuel' changes st h _
    have hs : changes = [] := List.eq_nil_of_length_eq_zero (by omega)
    subst hs
    cases fuel' <;> rfl
  | succ f ih =>
    intro fuel' changes st h h'
    match changes with
    | [] => cases fuel' <;> rfl
    | [c] => cases fuel' <;> rfl
    | c :: n :: rest =>
      have hlen : rest.length + 2 ≤ f + 1 := by
        simpa using h
      cases fuel' with
      | zero =>
        exfalso
        simp at h'
      | succ f' =>
        have hlen' : rest.length + 2 ≤ f' + 1 := by
          simpa using h'
        show (if c.removed && n.added then
                walkF f rest (emitGroup (splitPreserve c.value) (splitPreserve n.value) st)
              else walkF f (n :: rest) (emitSingle c st)) =
             (if c.removed && n.added then
                walkF f' rest (emitGroup (splitPreserve c.value) (splitPreserve n.value) st)
              else walkF f' (n :: rest) (emitSingle c st))
        by_cases hc : (c.removed && n.added) = true
        · rw [if_pos hc, if_pos hc, ih f' rest _ (by omega) (by omega)]
        · rw [if_neg hc, if_neg hc, ih f' (n :: rest) _ (by simp; omega) (by simp; omega)]

theorem walk_nil (st : LoopState) : walk [] st = st := rfl

theorem walk_one (c : Change) (st : LoopState) : walk [c] st = emitSingle c st := rfl

theorem walk_two (c n : Change) (rest : List Change) (st : LoopState) :
    walk (c :: n :: rest) st =
      if c.removed && n.added then
        walk rest (emitGroup (splitPreserve c.value) (splitPreserve n.value) st)
      else walk (n :: rest) (emitSingle c st) := by
  unfold walk
  have hl : (c :: n :: rest).length = rest.length + 2 := by simp
  rw [hl]
  show (if c.removed && n.added then
          walkF (rest.length + 1) rest (emitGroup (splitPreserve c.value) (splitPreserve n.value) st)
        else walkF (rest.length + 1) (n :: rest) (emitSingle c st)) = _
  by_cases hc : (c.removed && n.added) = true
  · rw [if_pos hc, if_pos hc, walkF_fuel (rest.length + 1) rest.length rest _ (by omega) (by omega)]
  · rw [if_neg hc, if_neg hc,
      walkF_fuel (rest.length + 1) (n :: rest).length (n :: rest) _ (by simp) (by simp)]

theorem diffListF_self : ∀ (L : List Str) (fuel : Nat), L.length ≤ fuel →
    diffListF fuel L L = L.map Step.keep := by
  intro L
  induction L with
  | nil =>
    intro fuel _
    cases fuel <;> rfl
  | cons a as ih =>
    intro fuel h
    cases fuel with
    | zero =>
      exfalso
      simp at h
    | succ f =>
      simp only [diffListF]
      rw [if_pos trivial, ih f (by simp at h; omega)]
      rfl

theorem diffList_self (L : List Str) : diffList L L = L.map Step.keep := by
  unfold diffList
  exact diffListF_self L _ (by omega)

theorem toChanges_cons (s : Step) (rest : List Step) :
    toChanges (s :: rest) =
      match toChanges rest with
      | [] => [{ value := stepLine s ++ ['\n'], added := stepAdded s, removed := stepRemoved s }]
      | c :: cs =>
        if stepAdded s = c.added ∧ stepRemoved s = c.removed then
          { value := stepLine s ++ '\n' :: c.value, added := c.added, removed := c.removed } :: cs
        else
          { value := stepLine s ++ ['\n'], added := stepAdded s, removed := stepRemoved s }
            :: c :: cs := rfl

theorem toChanges_map_keep : ∀ (L : List Str), L ≠ [] →
    toChanges (L.map Step.keep) =
      [{ value := joinNl L, added := false, removed := false }] := by
  intro L
  induction L with
  | nil => intro h; exact absurd rfl h
  | cons x xs ih =>
    intro _
    cases xs with
    | nil =>
      simp [toChanges, stepLine, stepAdded, stepRemoved, joinNl]
    | cons y ys =>
      have ih2 := ih (by simp)
      rw [List.map_cons, toChanges_cons, ih2]
      simp [stepAdded, stepRemoved, stepLine, joinNl]

/-! ### Emission lemmas -/

theorem emitEqual_counters : ∀ (ls : List Str) (st : LoopState),
    (emitEqual ls st).added = st.added ∧ (emitEqual ls st).removed = st.removed ∧
    (emitEqual ls st).modified = st.modified := by
  intro ls
  induction ls with
  | nil => intro st; exact ⟨rfl, rfl, rfl⟩
  | cons l ls ih => intro st; exact ih _

theorem emitEqual_types : ∀ (ls : List Str) (st : LoopState),
    ∀ l ∈ (emitEqual ls st).diff, l ∈ st.diff ∨ l.type = DiffLineType.unchanged := by
  intro ls
  induction ls with
  | nil => intro st l hl; exact Or.inl hl
  | cons x xs ih =>
    intro st l hl
    rcases ih _ l hl with h | h
    · rcases List.mem_append.1 h with h2 | h2
      · exact Or.inl h2
      · right
        rw [List.mem_singleton.1 h2]
    · exact Or.inr h

theorem emitAdded_types : ∀ (ls : List Str) (st : LoopState),
    ∀ l ∈ (emitAdded ls st).diff, l ∈ st.diff ∨ l.type = DiffLineType.added := by
  intro ls
  induction ls with
  | nil => intro st l hl; exact Or.inl hl
  | cons x xs ih =>
    intro st l hl
    rcases ih _ l hl with h | h
    · rcases List.mem_append.1 h with h2 | h2
      · exact Or.inl h2
      · right
        rw [List.mem_singleton.1 h2]
    · exact Or.inr h

theorem emitRemoved_types : ∀ (ls : List Str) (st : LoopState),
    ∀ l ∈ (emitRemoved ls st).diff, l ∈ st.diff ∨ l.type = DiffLineType.removed := by
  intro ls
  induction ls with
  | nil => intro st l hl; exact Or.inl hl
  | cons x xs ih =>
    intro st l hl
    rcases ih _ l hl with h | h
    · rcases List.mem_append.1 h with h2 | h2
      · exact Or.inl h2
      · right
        rw [List.mem_singleton.1 h2]
    · exact Or.inr h

theorem emitAdded_cons (a : Str) (as : List Str) (st : LoopState) :
    emitAdded (a :: as) st = emitAdded as
      { st with
        diff := st.diff ++
          [{ type := DiffLineType.added, oldNumber := none, newNumber := some st.newLine,
             before := none, after := some a }],
        newLine := st.newLine + 1, added := st.added + 1 } := rfl

theorem getElem?_cons_shift (x : Str) (xs : List Str) (i k : Nat) (h : i = k + 1) :
    (x :: xs)[i]? = xs[k]? := by
  subst h
  exact List.getElem?_cons_succ

theorem emitAdded_diff : ∀ (as : List Str) (st : LoopState),
    (emitAdded as st).diff =
      st.diff ++ (List.range as.length).map fun j =>
        { type := DiffLineType.added, oldNumber := none, newNumber := some (st.newLine + j),
          before := none, after := as[j]? } := by
  intro as
  induction as with
  | nil =>
    intro st
    simp [emitAdded]
  | cons a as ih =>
    intro st
    rw [emitAdded_cons, ih]
    dsimp only
    rw [List.append_assoc]
    congr 1
    rw [List.length_cons, List.range_succ_eq_map, List.map_cons, List.map_map]
    rw [List.singleton_append]
    congr 1
    · simp
    · apply List.map_congr_left
      intro j hj
      simp only [Function.comp_apply]
      rw [show st.newLine + Nat.succ j = st.newLine + 1 + j from by omega,
        getElem?_cons_shift a as (Nat.succ j) j (by omega)]

theorem emitGroup_nil (as : List Str) (st : LoopState) :
    emitGroup [] as st = emitAdded as st := rfl

theorem emitGroup_cons_nil (b : Str) (bs : List Str) (st : LoopState) :
    emitGroup (b :: bs) [] st = emitGroup bs []
      { st with
        diff := st.diff ++
          [{ type := DiffLineType.removed, oldNumber := some st.oldLine, newNumber := none,
             before := some b, after := none }],
        oldLine := st.oldLine + 1, removed := st.removed + 1 } := rfl

theorem emitGroup_cons_cons (b a : Str) (bs as : List Str) (st : LoopState) :
    emitGroup (b :: bs) (a :: as) st = emitGroup bs as
      { st with
        diff := st.diff ++
          [{ type := DiffLineType.modified, oldNumber := some st.oldLine,
             newNumber := some st.newLine, before := some b, after := some a }],
        oldLine := st.oldLine + 1, newLine := st.newLine + 1,
        modified := st.modified + 1 } := rfl

theorem claimGroupBlock_nil_cons (a : Str) (as : List Str) (o n : Nat) :
    claimGroupBlock [] (a :: as) o n =
      { type := DiffLineType.added, oldNumber := none, newNumber := some n,
        before := none, after := some a } :: claimGroupBlock [] as o (n + 1) := by
  simp only [claimGroupBlock, List.length_nil, List.length_cons, Nat.zero_min, Nat.sub_zero,
    List.range_zero, List.map_nil, List.nil_append, Nat.add_zero, Nat.zero_add]
  rw [List.range_succ_eq_map, List.map_cons, List.map_map]
  congr 1
  · simp
  · apply List.map_congr_left
    intro j hj
    simp only [Function.comp_apply]
    rw [show n + Nat.succ j = n + 1 + j from by omega,
      getElem?_cons_shift a as (Nat.succ j) j (by omega)]

theorem claimGroupBlock_cons_nil (b : Str) (bs : List Str) (o n : Nat) :
    claimGroupBlock (b :: bs) [] o n =
      { type := DiffLineType.removed, oldNumber := some o, newNumber := none,
        before := some b, after := none } :: claimGroupBlock bs [] (o + 1) n := by
  simp only [claimGroupBlock, List.length_nil, List.length_cons, Nat.min_zero, Nat.sub_zero,
    List.range_zero, List.map_nil, List.nil_append, List.append_nil, Nat.add_zero, Nat.zero_add]
  rw [List.range_succ_eq_map, List.map_cons, List.map_map]
  congr 1
  · simp
  · apply List.map_congr_left
    intro j hj
    simp only [Function.comp_apply]
    rw [show o + Nat.succ j = o + 1 + j from by omega,
      getElem?_cons_shift b bs (Nat.succ j) j (by omega)]

theorem claimGroupBlock_cons_cons (b a : Str) (bs as : List Str) (o n : Nat) :
    claimGroupBlock (b :: bs) (a :: as) o n =
      { type := DiffLineType.modified, oldNumber := some o, newNumber := some n,
        before := some b, after := some a } :: claimGroupBlock bs as (o + 1) (n + 1) := by
  simp only [claimGroupBlock, List.length_cons]
  rw [show min (bs.length + 1) (as.length + 1) = min bs.length as.length + 1 from by omega]
  rw [show bs.length + 1 - (min bs.length as.length + 1) =
      bs.length - min bs.length as.length from by omega]
  rw [show as.length + 1 - (min bs.length as.length + 1) =
      as.length - min bs.length as.length from by omega]
  rw [List.range_succ_eq_map, List.map_cons, List.map_map]
  rw [List.cons_append, List.cons_append]
  congr 1
  · simp
  · congr 1
    · congr 1
      · apply List.map_congr_left
        intro j hj
        simp only [Function.comp_apply]
        rw [show o + Nat.succ j = o + 1 + j from by omega,
          show n + Nat.succ j = n + 1 + j from by omega,
          getElem?_cons_shift b bs (Nat.succ j) j (by omega),
          getElem?_cons_shift a as (Nat.succ j) j (by omega)]
      · apply List.map_congr_left
        intro j hj
        rw [show o + (min bs.length as.length + 1) + j =
            o + 1 + min bs.length as.length + j from by omega,
          getElem?_cons_shift b bs (min bs.length as.length + 1 + j)
            (min bs.length as.length + j) (by omega)]
    · apply List.map_congr_left
      intro j hj
      rw [show n + (min bs.length as.length + 1) + j =
          n + 1 + min bs.length as.length + j from by omega,
        getElem?_cons_shift a as (min bs.length as.length + 1 + j)
          (min bs.length as.length + j) (by omega)]

theorem emitGroup_diff : ∀ (ds as : List Str) (st : LoopState),
    (emitGroup ds as st).diff = st.diff ++ claimGroupBlock ds as st.oldLine st.newLine := by
  intro ds
  induction ds with
  | nil =>
    intro as st
    rw [emitGroup_nil, emitAdded_diff]
    congr 1
    simp [claimGroupBlock]
  | cons b bs ih =>
    intro as st
    cases as with
    | nil =>
      rw [emitGroup_cons_nil, ih, claimGroupBlock_cons_nil]
      simp [List.append_assoc]
    | cons a as =>
      rw [emitGroup_cons_cons, ih, claimGroupBlock_cons_cons]
      simp [List.append_assoc]

/-! ### C2 -/

/-- C2: a removed run immediately followed by an added run is consumed as one
modification group whose output pairs the j-th deleted line with the j-th
inserted line as a modified line, spilling leftovers as removed/added lines;
standalone added (removed) runs emit only added (removed) lines. -/
theorem c2_modification_grouping :
    (∀ (d n : Change) (rest : List Change) (st : LoopState),
        d.removed = true → n.added = true →
        walk (d :: n :: rest) st =
          walk rest (emitGroup (splitPreserve d.value) (splitPreserve n.value) st))
    ∧ (∀ (ds as : List Str) (st : LoopState),
        (emitGroup ds as st).diff = st.diff ++ claimGroupBlock ds as st.oldLine st.newLine)
    ∧ (∀ (c : Change) (rest : List Change) (st : LoopState),
        c.added = true → c.removed = false →
        walk (c :: rest) st = walk rest (emitAdded (splitPreserve c.value) st)
        ∧ ∀ l ∈ (emitAdded (splitPreserve c.value) st).diff,
            l ∈ st.diff ∨ l.type = DiffLineType.added)
    ∧ (∀ (c : Change) (rest : List Change) (st : LoopState),
        c.removed = true → c.added = false →
        (∀ n rest2, rest = n :: rest2 → n.added = false) →
        walk (c :: rest) st = walk rest (emitRemoved (splitPreserve c.value) st)
        ∧ ∀ l ∈ (emitRemoved (splitPreserve c.value) st).diff,
            l ∈ st.diff ∨ l.type = DiffLineType.removed) := by
  refine ⟨?_, emitGroup_diff, ?_, ?_⟩
  · intro d n rest st hd hn
    rw [walk_two, if_pos (by rw [hd, hn]; rfl)]
  · intro c rest st hadd hrem
    have hsingle : emitSingle c st = emitAdded (splitPreserve c.value) st := by
      unfold emitSingle
      rw [if_pos hadd]
    constructor
    · cases rest with
      | nil =>
        rw [walk_one, hsingle, walk_nil]
      | cons n rest2 =>
        rw [walk_two, if_neg (by rw [hrem]; simp), hsingle]
    · exact emitAdded_types _ st
  · intro c rest st hrem hadd hno
    have hsingle : emitSingle c st = emitRemoved (splitPreserve c.value) st := by
      unfold emitSingle
      rw [if_neg (by rw [hadd]; simp), if_pos hrem]
    constructor
    · cases rest with
      | nil =>
        rw [walk_one, hsingle, walk_nil]
      | cons n rest2 =>
        rw [walk_two, if_neg (by rw [hno n rest2 rfl]; simp), hsingle]
    · exact emitRemoved_types _ st

/-- C2 witness: a two-line deleted run against a one-line inserted run yields
one modified pair and one leftover removed line. -/
theorem c2_witness :
    (walk [{ value := ("a\nb\n").data, added := false, removed := true },
           { value := ("x\n").data, added := true, removed := false }]
       { diff := [], added := 0, removed := 0, modified := 0, oldLine := 1, newLine := 1 }).diff =
      claimGroupBlock [("a").data, ("b").data] [("x").data] 1 1 := by
  rw [c2_modification_grouping.1 _ _ [] _ rfl rfl, walk_nil, c2_modification_grouping.2.1]
  decide

/-! ### Summary lemmas -/

theorem computeTextDiff_fst (o c : Str) :
    (computeTextDiff o c).1 = (finalState o c).diff := rfl

theorem computeTextDiff_identical (o c : Str) :
    (computeTextDiff o c).2.identical =
      ((finalState o c).added + (finalState o c).removed + (finalState o c).modified == 0) := rfl

theorem computeTextDiff_totalLines (o c : Str) :
    (computeTextDiff o c).2.totalLines = totalLinesOf o c := rfl

theorem computeTextDiff_added (o c : Str) :
    (computeTextDiff o c).2.added = (finalState o c).added := rfl

theorem computeTextDiff_removed (o c : Str) :
    (computeTextDiff o c).2.removed = (finalState o c).removed := rfl

theorem computeTextDiff_modified (o c : Str) :
    (computeTextDiff o c).2.modified = (finalState o c).modified := rfl

theorem computeTextDiff_changePercent (o c : Str) :
    (computeTextDiff o c).2.changePercent =
      (if totalLinesOf o c = 0 then 0
       else min 100 (max 0 (jsRound
         ((((finalState o c).added + (finalState o c).removed + (finalState o c).modified : Nat) : ℚ)
           / (totalLinesOf o c : ℚ) * 100)))) := rfl

/-! ### C3 -/

/-- C3: `totalLines` is the longer post-normalization post-split line count,
`identical` holds exactly when all three change counters are zero,
`changePercent` is the claimed clamped rounded formula (`0` when `totalLines`
is `0`), and it always lies in `[0, 100]`. -/
theorem c3_summary_formulas (o c : Str) :
    (computeTextDiff o c).2.totalLines =
      max (splitPreserve (normalizeNewlines o)).length
        (splitPreserve (normalizeNewlines c)).length
    ∧ ((computeTextDiff o c).2.identical = true ↔
        ((computeTextDiff o c).2.added = 0 ∧ (computeTextDiff o c).2.removed = 0 ∧
          (computeTextDiff o c).2.modified = 0))
    ∧ (computeTextDiff o c).2.changePercent =
        specChangePercent (computeTextDiff o c).2.added (computeTextDiff o c).2.removed
          (computeTextDiff o c).2.modified (computeTextDiff o c).2.totalLines
    ∧ ((computeTextDiff o c).2.totalLines = 0 → (computeTextDiff o c).2.changePercent = 0)
    ∧ 0 ≤ (computeTextDiff o c).2.changePercent
    ∧ (computeTextDiff o c).2.changePercent ≤ 100 := by
  refine ⟨computeTextDiff_totalLines o c, ?_, ?_, ?_, ?_, ?_⟩
  · rw [computeTextDiff_identical, computeTextDiff_added, computeTextDiff_removed,
      computeTextDiff_modified, beq_iff_eq]
    omega
  · rw [computeTextDiff_changePercent, computeTextDiff_added, computeTextDiff_removed,
      computeTextDiff_modified, computeTextDiff_totalLines]
    unfold specChangePercent
    by_cases ht : totalLinesOf o c = 0
    · rw [if_pos ht, if_pos ht]
    · rw [if_neg ht, if_neg ht]
      congr 2
      push_cast
      ring_nf
  · intro h
    rw [computeTextDiff_changePercent]
    rw [computeTextDiff_totalLines] at h
    rw [if_pos h]
  · rw [computeTextDiff_changePercent]
    by_cases ht : totalLinesOf o c = 0
    · rw [if_pos ht]
    · rw [if_neg ht]
      exact le_min (by omega) (le_max_left 0 _)
  · rw [computeTextDiff_changePercent]
    by_cases ht : totalLinesOf o c = 0
    · rw [if_pos ht]
      omega
    · rw [if_neg ht]
      exact min_le_left 100 _

/-- C3 witness: empty inputs give zero total lines and zero change percent. -/
theorem c3_witness : (computeTextDiff [] []).2.changePercent = 0 :=
  (c3_summary_formulas [] []).2.2.2.1 (by decide)

theorem jsRound_zero : jsRound 0 = 0 := by
  unfold jsRound
  rw [zero_add]
  exact Int.floor_eq_zero_iff.2 (by constructor <;> norm_num)

theorem computeTextDiff_of_eq_lines (o c : Str)
    (h : splitPreserve (normalizeNewlines o) = splitPreserve (normalizeNewlines c)) :
    (computeTextDiff o c).2.identical = true
    ∧ (computeTextDiff o c).2.changePercent = 0
    ∧ ∀ l ∈ (computeTextDiff o c).1, l.type = DiffLineType.unchanged := by
  have hnoNl : ∀ l ∈ splitPreserve (normalizeNewlines c), '\n' ∉ l :=
    splitPreserve_noNl (normalizeNewlines c)
  have hchanges : diffLines (normalizeNewlines o) (normalizeNewlines c) =
      toChanges ((splitPreserve (normalizeNewlines c)).map Step.keep) := by
    unfold diffLines
    rw [h, diffList_self]
  have hfs : finalState o c =
      emitEqual (splitPreserve (normalizeNewlines c))
        { diff := [], added := 0, removed := 0, modified := 0, oldLine := 1, newLine := 1 } := by
    unfold finalState
    rw [hchanges]
    cases hLc : splitPreserve (normalizeNewlines c) with
    | nil => rfl
    | cons x xs =>
      rw [toChanges_map_keep _ (by simp)]
      rw [walk_one]
      show emitEqual (splitPreserve (joinNl (x :: xs))) _ = _
      rw [splitPreserve_joinNl (x :: xs) (hLc ▸ hnoNl)]
  have ha : (emitEqual (splitPreserve (normalizeNewlines c))
      { diff := [], added := 0, removed := 0, modified := 0, oldLine := 1, newLine := 1 }).added = 0 :=
    (emitEqual_counters _ _).1
  have hr : (emitEqual (splitPreserve (normalizeNewlines c))
      { diff := [], added := 0, removed := 0, modified := 0, oldLine := 1, newLine := 1 }).removed = 0 :=
    (emitEqual_counters _ _).2.1
  have hm : (emitEqual (splitPreserve (normalizeNewlines c))
      { diff := [], added := 0, removed := 0, modified := 0, oldLine := 1, newLine := 1 }).modified = 0 :=
    (emitEqual_counters _ _).2.2
  refine ⟨?_, ?_, ?_⟩
  · rw [computeTextDiff_identical, hfs, ha, hr, hm]
    rfl
  · rw [computeTextDiff_changePercent, hfs, ha, hr, hm]
    by_cases ht : totalLinesOf o c = 0
    · rw [if_pos ht]
    · rw [if_neg ht]
      norm_num [jsRound_zero]
  · intro l hl
    rw [computeTextDiff_fst, hfs] at hl
    rcases emitEqual_types _ _ l hl with hmem | htype
    · exact absurd hmem (List.not_mem_nil l)
    · exact htype

/-! ### C6 -/

/-- C6: reconciling any string with itself yields an identical summary, zero
change percent, and only unchanged lines. -/
theorem c6_reflexive_identical (s : Str) :
    (computeTextDiff s s).2.identical = true
    ∧ (computeTextDiff s s).2.changePercent = 0
    ∧ ∀ l ∈ (computeTextDiff s s).1, l.type = DiffLineType.unchanged :=
  computeTextDiff_of_eq_lines s s rfl

/-- C6 witness: a concrete self-comparison is identical. -/
theorem c6_witness : (computeTextDiff (("ab").data) (("ab").data)).2.identical = true :=
  (c6_reflexive_identical (("ab").data)).1

/-! ### C4 -/

/-- C4 counterexample: the empty string does not end in a newline, yet
reconciling it against a single newline yields different line counts (0
versus 1) and a non-identical summary. -/
theorem c4_counterexample :
    ([] : Str).getLast? ≠ some '\n'
    ∧ (splitPreserve (normalizeNewlines ([] : Str))).length = 0
    ∧ (splitPreserve (normalizeNewlines ['\n'])).length = 1
    ∧ (computeTextDiff [] ['\n']).2.identical = false := by
  refine ⟨by decide, by decide, by decide, by decide⟩

/-- C4 (amended): for every non-empty carriage-return-free text not ending in
a newline, appending a final newline leaves the line count unchanged and
reconciling the two (in either order) is identical with only unchanged
lines. -/
theorem c4_trailing_newline_amended (s : Str) (hne : s ≠ []) (hcr : '\r' ∉ s)
    (hlast : s.getLast? ≠ some '\n') :
    (splitPreserve (normalizeNewlines s)).length =
      (splitPreserve (normalizeNewlines (s ++ ['\n']))).length
    ∧ (computeTextDiff s (s ++ ['\n'])).2.identical = true
    ∧ (∀ l ∈ (computeTextDiff s (s ++ ['\n'])).1, l.type = DiffLineType.unchanged)
    ∧ (computeTextDiff (s ++ ['\n']) s).2.identical = true
    ∧ (∀ l ∈ (computeTextDiff (s ++ ['\n']) s).1, l.type = DiffLineType.unchanged) := by
  have hcr2 : '\r' ∉ s ++ ['\n'] := by
    intro hmem
    rcases List.mem_append.1 hmem with hmem | hmem
    · exact hcr hmem
    · simp at hmem
  have h1 : normalizeNewlines s = s := normalizeNewlines_of_no_cr s hcr
  have h2 : normalizeNewlines (s ++ ['\n']) = s ++ ['\n'] := normalizeNewlines_of_no_cr _ hcr2
  have hsp : splitPreserve (normalizeNewlines (s ++ ['\n'])) =
      splitPreserve (normalizeNewlines s) := by
    rw [h1, h2, splitPreserve_append_newline s hne hlast]
  have hA := computeTextDiff_of_eq_lines s (s ++ ['\n']) hsp.symm
  have hB := computeTextDiff_of_eq_lines (s ++ ['\n']) s hsp
  exact ⟨by rw [hsp], hA.1, hA.2.2, hB.1, hB.2.2⟩

/-- C4 witness: `"a"` against `"a\n"` reconciles as identical. -/
theorem c4_witness : (computeTextDiff (("a").data) (("a").data ++ ['\n'])).2.identical = true :=
  (c4_trailing_newline_amended (("a").data) (by decide) (by decide) (by decide)).2.1

/-! ### C7 -/

/-- C7 counterexample: on an input already containing a CRLF pair, expanding
every `\n` into `\r\n` changes the resulting summary, because the fresh `\r`
merges with the pre-existing `\r` during normalization. -/
theorem c7_counterexample :
    expandNl ['\r', '\n'] = ['\r', '\r', '\n']
    ∧ (computeTextDiff [] ['\r', '\n']).2 ≠ (computeTextDiff [] (expandNl ['\r', '\n'])).2 := by
  refine ⟨by decide, fun heq => ?_⟩
  have hadded := congrArg DiffSummary.added heq
  revert hadded
  decide

/-- C7 (amended): for carriage-return-free inputs, replacing every `\n` with
`\r\n` in either or both inputs leaves the whole reconciliation output
(lines and summary) unchanged. -/
theorem c7_newline_invariance_amended (o c : Str) (ho : '\r' ∉ o) (hc : '\r' ∉ c) :
    computeTextDiff (expandNl o) c = computeTextDiff o c
    ∧ computeTextDiff o (expandNl c) = computeTextDiff o c
    ∧ computeTextDiff (expandNl o) (expandNl c) = computeTextDiff o c := by
  have hno : normalizeNewlines (expandNl o) = normalizeNewlines o := by
    rw [normalizeNewlines_expandNl o ho, normalizeNewlines_of_no_cr o ho]
  have hnc : normalizeNewlines (expandNl c) = normalizeNewlines c := by
    rw [normalizeNewlines_expandNl c hc, normalizeNewlines_of_no_cr c hc]
  refine ⟨?_, ?_, ?_⟩
  · unfold computeTextDiff
    rw [hno]
  · unfold computeTextDiff
    rw [hnc]
  · unfold computeTextDiff
    rw [hno, hnc]

/-- C7 witness: expanding the newline of `"a\nb"` on either side leaves the
reconciliation unchanged. -/
theorem c7_witness :
    computeTextDiff (expandNl (("a\nb").data)) (("b").data) =
      computeTextDiff (("a\nb").data) (("b").data) :=
  (c7_newline_invariance_amended (("a\nb").data) (("b").data) (by decide) (by decide)).1

end Mintdiff
